import Mathlib

/-!
Shallow embedding of src/HashMap.h: the separate-chaining container
HashMap<Key, Value, Hash>, instantiated at Key = Value = Nat with an
arbitrary hash function Nat → Nat.  The member std::vector<Bucket> becomes a
List of buckets, each Bucket (a std::list of pairs) becomes a
List (Nat × Nat), std::vector iterators become bucket indices, and std::list
iterators into a chain become chain indices.
-/

structure HashMap where
  mData : List (List (Nat × Nat))
  mHash : Nat → Nat
  mSize : Nat

namespace HashMap

/-- All entries of the table, in bucket order and, inside a bucket, in chain
order: the sequence produced by forward iteration. -/
def entries (t : HashMap) : List (Nat × Nat) :=
  t.mData.flatten

/-- The keys currently stored, with multiplicity, in iteration order. -/
def keys (t : HashMap) : List Nat :=
  (entries t).map Prod.fst

/-- Embeds double loadFactor() const, which returns mSize / mData.size().
Both operands are size_t, so the quotient is computed by integer division and
only the resulting integer is converted to double; the conversion is exact
for the values that decide the growth check, so the integer quotient is the
faithful model. -/
def loadFactor (t : HashMap) : Nat :=
  t.mSize / t.mData.length

/-- The real-valued load factor size / bucket_count as the specification
words it (true division, not the integer division the code performs); used
only to state the spec claims against the code. -/
def specLoadFactor (t : HashMap) : ℚ :=
  (t.mSize : ℚ) / (t.mData.length : ℚ)

/-- Embeds size_t indexOf(const Key and key) const: mHash(key) % mData.size(). -/
def indexOf (t : HashMap) (k : Nat) : Nat :=
  t.mHash k % t.mData.length

/-- Embeds the inner loop of rehash() over one bucket's chain: each entry e of
chain (bucket i of the resized table, whose bucket count is n) is kept in
place when hash(e) % n = i, and otherwise push_back-ed onto bucket
hash(e) % n and erased from bucket i.  Returns the entries kept in bucket i
(in their original order) together with the updated other buckets. -/
def moveEntries (hash : Nat → Nat) (n i : Nat) :
    List (Nat × Nat) → List (List (Nat × Nat)) →
    List (Nat × Nat) × List (List (Nat × Nat))
  | [], bs => ([], bs)
  | e :: rest, bs =>
    let j := hash e.1 % n
    if j = i then
      let r := moveEntries hash n i rest bs
      (e :: r.1, r.2)
    else
      moveEntries hash n i rest (bs.set j (bs.getD j [] ++ [e]))

/-- Embeds the outer loop of rehash(): buckets 0, 1, ..., oldSize-1 are
processed in order (fuel counts the remaining iterations, so fuel = oldSize
when i = 0); processing bucket i rewrites it to the entries it keeps and
appends the moved entries to their new buckets. -/
def rehashLoop (hash : Nat → Nat) (n : Nat) :
    Nat → Nat → List (List (Nat × Nat)) → List (List (Nat × Nat))
  | _, 0, bs => bs
  | i, fuel + 1, bs =>
    let r := moveEntries hash n i (bs.getD i []) bs
    rehashLoop hash n (i + 1) fuel (r.2.set i r.1)

/-- Embeds void rehash(): mData.resize(oldSize * 2) appends oldSize empty
buckets, then every entry of every old bucket is reconsidered against the
new bucket count. -/
def rehash (t : HashMap) : HashMap :=
  let oldSize := t.mData.length
  let resized := t.mData ++ List.replicate oldSize []
  { t with mData := rehashLoop t.mHash (oldSize * 2) 0 oldSize resized }

/-- Embeds explicit HashMap(Hash hash = Hash()): mData(1) makes one empty
bucket, mSize = 0. -/
def mkEmpty (hash : Nat → Nat) : HashMap :=
  { mData := [[]], mHash := hash, mSize := 0 }

/-- One iteration of the range constructor's loop: push_back the input pair
onto bucket indexOf(key), with no duplicate check. -/
def pushEntry (t : HashMap) (e : Nat × Nat) : HashMap :=
  let index := indexOf t e.1
  { t with mData := t.mData.set index (t.mData.getD index [] ++ [e]) }

/-- Embeds the iterator-range constructor HashMap(Iter, Iter, Hash): it sets
mSize = std::distance(begin, end) (counting duplicate keys), resizes mData to
mSize * 2 buckets (1 if that is 0, via the GNU ?: extension), and push_backs
every input pair onto bucket indexOf(key) with no duplicate check. -/
def fromList (hash : Nat → Nat) (l : List (Nat × Nat)) : HashMap :=
  let n := l.length
  let t0 : HashMap :=
    { mData := List.replicate (if n * 2 = 0 then 1 else n * 2) [],
      mHash := hash, mSize := n }
  l.foldl pushEntry t0

/-- Embeds the copy constructor HashMap(const HashMap and rhs): a deep copy of
buckets, hash function and size. -/
def copyCtor (t : HashMap) : HashMap :=
  { mData := t.mData, mHash := t.mHash, mSize := t.mSize }

/-- Embeds the move constructor HashMap(HashMap and rhs): the bucket vector is
moved out of the source (a moved-from std::vector is left empty), the hash
function is moved (a moved-from function object stays callable), and mSize is
merely read, so the source keeps its old size.  Returns (new table,
moved-from source). -/
def moveCtor (t : HashMap) : HashMap × HashMap :=
  ({ mData := t.mData, mHash := t.mHash, mSize := t.mSize },
   { mData := [], mHash := t.mHash, mSize := t.mSize })

/-- Embeds void swap(HashMap and rhs): the three members are exchanged. -/
def swapTables (a b : HashMap) : HashMap × HashMap :=
  ({ mData := b.mData, mHash := b.mHash, mSize := b.mSize },
   { mData := a.mData, mHash := a.mHash, mSize := a.mSize })

/-- Embeds operator=(HashMap rhs), the copy-and-swap assignment: rhs is a
by-value copy of the right-hand table, *this is swapped with the copy, and
the copy is destroyed; the right-hand table itself is never touched.
Returns (state of the left-hand table, state of the right-hand table). -/
def assign (lhs rhs : HashMap) : HashMap × HashMap :=
  let tmp := copyCtor rhs
  let p := swapTables lhs tmp
  (p.1, rhs)

/-- Embeds the chain scan shared by insert, find and at: walk the bucket's
std::list from the front and stop at the first entry whose key compares equal
to k, returning its chain index and the entry. -/
def lookupChain (k : Nat) : List (Nat × Nat) → Option (Nat × (Nat × Nat))
  | [] => none
  | e :: rest =>
    if e.1 = k then some (0, e)
    else (lookupChain k rest).map (fun r => (r.1 + 1, r.2))

/-- The result of insert: the table after the call, the position of the
returned iterator as (bucket index, chain index), and the bool of the
returned pair. -/
structure InsertResult where
  table : HashMap
  pos : Nat × Nat
  inserted : Bool

/-- Embeds std::pair<iterator, bool> insert(StoredType) (the const-reference
and rvalue overloads have identical logic and share this model): if
loadFactor() > 0.5 (true iff the integer quotient is at least 1) the table is
rehashed first; then bucket indexOf(key) is scanned and either the iterator
to the first matching entry is returned with false, or the entry is appended
at the chain's end (std::list insert at end()), mSize is incremented, and the
iterator to the new entry is returned with true.  The iterator constructor's
normalization loop does not move an iterator aimed at a real entry, so the
position is the entry's (bucket, chain index). -/
def insert (t : HashMap) (kv : Nat × Nat) : InsertResult :=
  let t1 := if 1 ≤ loadFactor t then rehash t else t
  let index := indexOf t1 kv.1
  let chain := t1.mData.getD index []
  match lookupChain kv.1 chain with
  | some r => { table := t1, pos := (index, r.1), inserted := false }
  | none =>
    let t2 : HashMap :=
      { mData := t1.mData.set index (chain ++ [kv]), mHash := t1.mHash,
        mSize := t1.mSize + 1 }
    { table := t2, pos := (index, chain.length), inserted := true }

/-- Embeds the loop of void erase(const Key): scan bucket indexOf(key) and
remove the first entry whose key matches, if any.  Returns the rewritten
chain, or none when no entry matched (the loop falls through). -/
def eraseFromChain (k : Nat) : List (Nat × Nat) → Option (List (Nat × Nat))
  | [] => none
  | e :: rest =>
    if e.1 = k then some rest
    else (eraseFromChain k rest).map (fun c => e :: c)

/-- Embeds void erase(const Key): if a matching entry is found in bucket
indexOf(key) it is removed and mSize is decremented, otherwise nothing
happens. -/
def erase (t : HashMap) (k : Nat) : HashMap :=
  let index := indexOf t k
  match eraseFromChain k (t.mData.getD index []) with
  | some c =>
    { mData := t.mData.set index c, mHash := t.mHash, mSize := t.mSize - 1 }
  | none => t

/-- Embeds iterator find(const Key): the position (bucket index, chain index)
of the first matching entry, or none for the end iterator when the key is
absent. -/
def find (t : HashMap) (k : Nat) : Option (Nat × Nat) :=
  (lookupChain k (t.mData.getD (indexOf t k) [])).map
    (fun r => (indexOf t k, r.1))

/-- Embeds const Value and at(const Key) const: the value of the first
matching entry in bucket indexOf(key), or throw std::out_of_range when the
key is absent.  The method is const: it takes no lock on the table and the
embedding returns no table, mirroring that it never mutates. -/
def atKey (t : HashMap) (k : Nat) : Except Unit Nat :=
  match lookupChain k (t.mData.getD (indexOf t k) []) with
  | some r => Except.ok r.2.2
  | none => Except.error ()

/-- Embeds void clear(): every bucket's chain is cleared, the bucket count is
kept, mSize becomes 0. -/
def clear (t : HashMap) : HashMap :=
  { mData := t.mData.map (fun _ => ([] : List (Nat × Nat))), mHash := t.mHash,
    mSize := 0 }

/-- Iterator state: mBucket is the bucket cursor as an index into mData
(mData.length plays the role of mData.end()), mStored the in-chain cursor as
an index into the current bucket's chain; none models the default-constructed
(singular) StoredIterator used as the end sentinel. -/
structure Iter where
  mBucket : Nat
  mStored : Option Nat

/-- Embeds the normalization loop of iterator::iterator (also reused by
operator++): while (mStored == mBucket->end()) { if (++mBucket == mBucketEnd)
{ mStored = StoredIterator(); return; } mStored = mBucket->begin(); }.
Evaluating the loop condition dereferences mBucket, i.e. reads the bucket at
the cursor's index; the first argument is the suffix of the bucket list from
that index, so the nil case is precisely a read of a bucket at an index ≥
bucket_count (undefined behaviour on the std::vector), reported as an error.
A singular (default-constructed) mStored compares unequal to any real chain
end, which is what the none case of the condition models. -/
def iterNorm (bucketEnd : Nat) :
    List (List (Nat × Nat)) → Nat → Option Nat → Except Unit Iter
  | [], _, _ => Except.error ()
  | c :: rest, b, stored =>
    let atChainEnd : Bool := match stored with
      | some j => j == c.length
      | none => false
    if atChainEnd then
      if b + 1 = bucketEnd then Except.ok { mBucket := b + 1, mStored := none }
      else iterNorm bucketEnd rest (b + 1) (some 0)
    else Except.ok { mBucket := b, mStored := stored }

/-- Embeds iterator::iterator(bucket, bucketEnd, stored): the bucket cursor
starts at index b of buckets, bucketEnd is buckets.end(), and the
normalization loop of iterNorm runs. -/
def iterCtor (buckets : List (List (Nat × Nat))) (b : Nat)
    (stored : Option Nat) : Except Unit Iter :=
  iterNorm buckets.length (buckets.drop b) b stored

/-- Embeds iterator end(): iterator(mData.end(), mData.end()) with the
defaulted stored argument StoredIterator(). -/
def endIter (t : HashMap) : Except Unit Iter :=
  iterCtor t.mData t.mData.length none

/-- Embeds iterator begin(): iterator(mData.begin(), mData.end(),
mData.front().begin()), i.e. bucket cursor 0 and in-chain cursor at position
0 of the first bucket. -/
def beginIter (t : HashMap) : Except Unit Iter :=
  iterCtor t.mData 0 (some 0)

/-- The entry a returned iterator position (bucket index, chain index) refers
to, i.e. the dereference *it of a non-end iterator. -/
def iterEntry (t : HashMap) (p : Nat × Nat) : Option (Nat × Nat) :=
  (t.mData.getD p.1 [])[p.2]?

/-- One public mutating operation, for describing tables reachable through
the interface. -/
inductive Op where
  | ins : Nat × Nat → Op
  | del : Nat → Op
  | clr : Op

/-- Apply one operation: ins is insert (result table), del is erase, clr is
clear. -/
def stepOp (t : HashMap) : Op → HashMap
  | Op.ins kv => (insert t kv).table
  | Op.del k => erase t k
  | Op.clr => clear t

/-- Run a sequence of operations left to right. -/
def runOps (t : HashMap) (ops : List Op) : HashMap :=
  ops.foldl stepOp t

/-- A starting table: the default constructor, or the range/initializer-list
constructor on the given input sequence. -/
def initTable (hash : Nat → Nat) : Option (List (Nat × Nat)) → HashMap
  | none => mkEmpty hash
  | some l => fromList hash l

/-- An insert or erase operation (the sequences claim C7 quantifies over). -/
inductive OpIE where
  | ins : Nat × Nat → OpIE
  | del : Nat → OpIE

/-- Apply one insert/erase operation. -/
def stepIE (t : HashMap) : OpIE → HashMap
  | OpIE.ins kv => (insert t kv).table
  | OpIE.del k => erase t k

/-- Run a sequence of insert/erase operations left to right. -/
def runIE (t : HashMap) (ops : List OpIE) : HashMap :=
  ops.foldl stepIE t

/-- The representation invariant the table maintains: at least one bucket,
and every entry sits in the bucket its key hashes to (modulo the current
bucket count). -/
def WF (t : HashMap) : Prop :=
  0 < t.mData.length ∧
    ∀ i < t.mData.length, ∀ e ∈ t.mData.getD i [], t.mHash e.1 % t.mData.length = i

/-- No key occurs twice among the stored entries. -/
def NodupKeys (t : HashMap) : Prop :=
  (keys t).Nodup

instance (t : HashMap) : Decidable (WF t) := by
  unfold WF
  infer_instance

instance (t : HashMap) : Decidable (NodupKeys t) := by
  unfold NodupKeys
  infer_instance

/-! Helper lemmas about getD, set, append and flatten. -/

lemma getD_set_self {α : Type} (l : List α) (i : Nat) (a d : α)
    (h : i < l.length) : (l.set i a).getD i d = a := by
  simp [List.getD_eq_getElem?_getD, List.getElem?_set_self, h]

lemma getD_set_ne {α : Type} (l : List α) (i j : Nat) (a d : α)
    (h : i ≠ j) : (l.set i a).getD j d = l.getD j d := by
  simp [List.getD_eq_getElem?_getD, List.getElem?_set_ne h]

lemma getD_append_left {α : Type} (l₁ l₂ : List α) (i : Nat) (d : α)
    (h : i < l₁.length) : (l₁ ++ l₂).getD i d = l₁.getD i d := by
  simp [List.getD_eq_getElem?_getD, List.getElem?_append, h]

lemma getD_append_right {α : Type} (l₁ l₂ : List α) (i : Nat) (d : α)
    (h : l₁.length ≤ i) : (l₁ ++ l₂).getD i d = l₂.getD (i - l₁.length) d := by
  simp [List.getD_eq_getElem?_getD, List.getElem?_append_right h]

lemma getD_replicate_nil (k m : Nat) :
    (List.replicate k ([] : List (Nat × Nat))).getD m [] = [] := by
  rw [List.getD_eq_getElem?_getD, List.getElem?_replicate]
  split <;> rfl

lemma getD_mem (bs : List (List (Nat × Nat))) (i : Nat) (h : i < bs.length) :
    bs.getD i [] ∈ bs := by
  rw [List.getD_eq_getElem?_getD, List.getElem?_eq_getElem h]
  exact List.getElem_mem ..

lemma ext_getD (bs cs : List (List (Nat × Nat))) (hl : bs.length = cs.length)
    (h : ∀ m, bs.getD m [] = cs.getD m []) : bs = cs := by
  induction bs generalizing cs with
  | nil =>
    cases cs with
    | nil => rfl
    | cons c cs => simp at hl
  | cons b bs ih =>
    cases cs with
    | nil => simp at hl
    | cons c cs =>
      have h0 : b = c := by simpa using h 0
      have ht : bs = cs := by
        refine ih cs (by simpa using hl) (fun m => ?_)
        simpa using h (m + 1)
      rw [h0, ht]

lemma flatten_replicate_nil (k : Nat) :
    (List.replicate k ([] : List (Nat × Nat))).flatten = [] := by
  induction k with
  | zero => rfl
  | succ k ih => simpa [List.replicate_succ] using ih

/-- Replacing bucket i by a new chain changes the flattened content by
removing the old chain and adding the new one. -/
lemma flatten_set_add (bs : List (List (Nat × Nat))) (i : Nat)
    (c : List (Nat × Nat)) (h : i < bs.length) :
    ((bs.set i c).flatten : Multiset (Nat × Nat)) + (bs.getD i [] : Multiset (Nat × Nat)) =
      (bs.flatten : Multiset (Nat × Nat)) + (c : Multiset (Nat × Nat)) := by
  induction bs generalizing i with
  | nil => simp at h
  | cons b bs ih =>
    cases i with
    | zero =>
      simp only [List.set_cons_zero, List.flatten_cons, List.getD_cons_zero,
        ← Multiset.coe_add]
      abel
    | succ i =>
      have hi : i < bs.length := by simpa using h
      simp only [List.set_cons_succ, List.flatten_cons, List.getD_cons_succ,
        ← Multiset.coe_add]
      rw [add_assoc, ih i hi]
      exact (add_assoc _ _ _).symm

/-! Arithmetic of halving the modulus. -/

lemma mod_double (x n : Nat) (hn : 0 < n) :
    x % (n * 2) = x % n ∨ x % (n * 2) = x % n + n := by
  have h1 : x % (n * 2) % n = x % n := Nat.mod_mod_of_dvd x ⟨2, rfl⟩
  have h2 : x % (n * 2) < n * 2 := Nat.mod_lt _ (by omega)
  generalize hy : x % (n * 2) = y at h1 h2 ⊢
  generalize hr : x % n = r at h1 ⊢
  have h3 := Nat.div_add_mod y n
  have h4 : y / n < 2 := by
    rw [Nat.div_lt_iff_lt_mul hn]
    omega
  have h5 : y / n = 0 ∨ y / n = 1 := by
    generalize y / n = q at h4 ⊢
    omega
  rcases h5 with h5 | h5 <;> rw [h5, h1] at h3
  · left; omega
  · right; omega

/-! Behaviour of the rehash loops. -/

lemma moveEntries_length (hash : Nat → Nat) (n i : Nat) :
    ∀ (chain : List (Nat × Nat)) (bs : List (List (Nat × Nat))),
      (moveEntries hash n i chain bs).2.length = bs.length := by
  intro chain
  induction chain with
  | nil => intro bs; rfl
  | cons e rest ih =>
    intro bs
    simp only [moveEntries]
    split
    · exact ih bs
    · rw [ih]
      exact List.length_set ..

/-- When every entry of the processed chain is destined either to stay in
bucket i or to move to a single target bucket t0 (the situation rehash is in
for a well-placed table), the inner loop keeps exactly the staying entries,
in order, and appends the moving ones, in order, to bucket t0. -/
lemma moveEntries_spec (hash : Nat → Nat) (n i t0 : Nat) (hne : t0 ≠ i) :
    ∀ (chain : List (Nat × Nat)) (bs : List (List (Nat × Nat))),
      t0 < bs.length →
      (∀ e ∈ chain, hash e.1 % n = i ∨ hash e.1 % n = t0) →
      (moveEntries hash n i chain bs).1 =
          chain.filter (fun e => hash e.1 % n == i) ∧
        ∀ m, (moveEntries hash n i chain bs).2.getD m [] =
          if m = t0 then
            bs.getD t0 [] ++ chain.filter (fun e => hash e.1 % n == t0)
          else bs.getD m [] := by
  intro chain
  induction chain with
  | nil =>
    intro bs _ _
    refine ⟨rfl, fun m => ?_⟩
    by_cases hm : m = t0
    · subst hm; simp [moveEntries]
    · simp [moveEntries, hm]
  | cons e rest ih =>
    intro bs ht0 htgt
    have he := htgt e (List.mem_cons_self ..)
    by_cases hj : hash e.1 % n = i
    · have hrest := ih bs ht0 (fun x hx => htgt x (List.mem_cons_of_mem _ hx))
      have hb : (hash e.1 % n == t0) = false := by
        rw [hj]
        simp
        exact hne.symm
      constructor
      · simp only [moveEntries, if_pos hj]
        simp [List.filter_cons, hj, hrest.1]
      · intro m
        have hm := hrest.2 m
        simp only [moveEntries, if_pos hj]
        rw [List.filter_cons, hb]
        simpa using hm
    · have ht : hash e.1 % n = t0 := by
        rcases he with he | he
        · exact absurd he hj
        · exact he
      have hbs : (bs.set (hash e.1 % n) (bs.getD (hash e.1 % n) [] ++ [e])).length = bs.length := by
        simp
      have hrest := ih (bs.set (hash e.1 % n) (bs.getD (hash e.1 % n) [] ++ [e]))
        (by rw [hbs]; exact ht0) (fun x hx => htgt x (List.mem_cons_of_mem _ hx))
      have hbi : (hash e.1 % n == i) = false := by simp [hj]
      have hbt : (hash e.1 % n == t0) = true := by simp [ht]
      constructor
      · simp only [moveEntries, if_neg hj]
        rw [List.filter_cons, hbi]
        exact hrest.1
      · intro m
        have hm := hrest.2 m
        simp only [moveEntries, if_neg hj]
        rw [hm, List.filter_cons, hbt]
        by_cases hmt : m = t0
        · subst hmt
          rw [if_pos rfl, if_pos rfl, ht, getD_set_self _ _ _ _ ht0,
            List.append_assoc]
          rfl
        · rw [if_neg hmt, if_neg hmt, ht, getD_set_ne _ _ _ _ _ (fun h => hmt h.symm)]

/-- The outer loop of rehash, run from bucket i with the processed prefix
already redistributed, finishes the redistribution: afterwards old bucket m
holds its entries whose new index is unchanged and new bucket m + oldCount
holds, in order, its entries whose new index moved, while the total content
(as a multiset) never changes. -/
lemma rehashLoop_spec (hash : Nat → Nat) (orig : List (List (Nat × Nat)))
    (H : ∀ i < orig.length, ∀ e ∈ orig.getD i [], hash e.1 % orig.length = i) :
    ∀ (fuel i : Nat) (bs : List (List (Nat × Nat))),
      i + fuel = orig.length →
      bs.length = orig.length * 2 →
      (∀ m < orig.length, bs.getD m [] =
        if m < i then
          (orig.getD m []).filter (fun e => hash e.1 % (orig.length * 2) == m)
        else orig.getD m []) →
      (∀ m < orig.length, bs.getD (m + orig.length) [] =
        if m < i then
          (orig.getD m []).filter
            (fun e => hash e.1 % (orig.length * 2) == m + orig.length)
        else []) →
      (rehashLoop hash (orig.length * 2) i fuel bs).length = orig.length * 2 ∧
        ((rehashLoop hash (orig.length * 2) i fuel bs).flatten :
            Multiset (Nat × Nat)) = (bs.flatten : Multiset (Nat × Nat)) ∧
        (∀ m < orig.length,
          (rehashLoop hash (orig.length * 2) i fuel bs).getD m [] =
            (orig.getD m []).filter
              (fun e => hash e.1 % (orig.length * 2) == m)) ∧
        (∀ m < orig.length,
          (rehashLoop hash (orig.length * 2) i fuel bs).getD
              (m + orig.length) [] =
            (orig.getD m []).filter
              (fun e => hash e.1 % (orig.length * 2) == m + orig.length)) := by
  intro fuel
  induction fuel with
  | zero =>
    intro i bs hif hlen hlow hhigh
    have hi : i = orig.length := by omega
    subst hi
    have h0 : rehashLoop hash (orig.length * 2) orig.length 0 bs = bs := rfl
    rw [h0]
    refine ⟨hlen, rfl, fun m hm => ?_, fun m hm => ?_⟩
    · rw [hlow m hm, if_pos hm]
    · rw [hhigh m hm, if_pos hm]
  | succ fuel ih =>
    intro i bs hif hlen hlow hhigh
    have hi : i < orig.length := by omega
    have hn0 : 0 < orig.length := by omega
    have hchain : bs.getD i [] = orig.getD i [] := by
      rw [hlow i hi, if_neg (by omega)]
    have htgt : ∀ e ∈ bs.getD i [],
        hash e.1 % (orig.length * 2) = i ∨
          hash e.1 % (orig.length * 2) = i + orig.length := by
      intro e hme
      rw [hchain] at hme
      have hmod := H i hi e hme
      rcases mod_double (hash e.1) orig.length hn0 with hc | hc <;>
        rw [hmod] at hc
      · exact Or.inl hc
      · exact Or.inr (by omega)
    have hne : i + orig.length ≠ i := by omega
    have hlt : i + orig.length < bs.length := by omega
    have hmv := moveEntries_spec hash (orig.length * 2) i (i + orig.length)
      hne (bs.getD i []) bs hlt htgt
    set r := moveEntries hash (orig.length * 2) i (bs.getD i []) bs with hr
    have hrlen : r.2.length = bs.length := moveEntries_length ..
    have hset : (r.2.set i r.1).length = orig.length * 2 := by
      rw [List.length_set, hrlen, hlen]
    have hilt2 : i < r.2.length := by omega
    -- pointwise description of the state handed to the next iteration
    have hbs3low : ∀ m < orig.length, (r.2.set i r.1).getD m [] =
        if m < i + 1 then
          (orig.getD m []).filter (fun e => hash e.1 % (orig.length * 2) == m)
        else orig.getD m [] := by
      intro m hm
      by_cases hmi : m = i
      · subst hmi
        rw [getD_set_self _ _ _ _ hilt2, if_pos (by omega), hmv.1, hchain]
      · rw [getD_set_ne _ _ _ _ _ (fun h => hmi h.symm), hmv.2 m,
          if_neg (by omega), hlow m hm]
        by_cases hmlt : m < i
        · rw [if_pos hmlt, if_pos (by omega)]
        · rw [if_neg hmlt, if_neg (by omega)]
    have hbs3high : ∀ m < orig.length, (r.2.set i r.1).getD (m + orig.length) [] =
        if m < i + 1 then
          (orig.getD m []).filter
            (fun e => hash e.1 % (orig.length * 2) == m + orig.length)
        else [] := by
      intro m hm
      rw [getD_set_ne _ _ _ _ _ (by omega), hmv.2 (m + orig.length)]
      by_cases hmi : m = i
      · subst hmi
        rw [if_pos rfl, if_pos (by omega), hhigh m hm, if_neg (by omega),
          List.nil_append, hchain]
      · rw [if_neg (by omega), hhigh m hm]
        by_cases hmlt : m < i
        · rw [if_pos hmlt, if_pos (by omega)]
        · rw [if_neg hmlt, if_neg (by omega)]
    -- content of the state handed to the next iteration, as a multiset
    have hr2eq : r.2 = bs.set (i + orig.length)
        (bs.getD (i + orig.length) [] ++
          (bs.getD i []).filter
            (fun e => hash e.1 % (orig.length * 2) == i + orig.length)) := by
      refine ext_getD _ _ (by rw [hrlen, List.length_set]) (fun m => ?_)
      rw [hmv.2 m]
      by_cases hmt : m = i + orig.length
      · subst hmt
        rw [if_pos rfl, getD_set_self _ _ _ _ hlt]
      · rw [if_neg hmt, getD_set_ne _ _ _ _ _ (fun h => hmt h.symm)]
    have hsplit : ((bs.getD i []).filter
          (fun e => hash e.1 % (orig.length * 2) == i) :
            Multiset (Nat × Nat)) +
        ((bs.getD i []).filter
          (fun e => hash e.1 % (orig.length * 2) == i + orig.length) :
            Multiset (Nat × Nat)) = (bs.getD i [] : Multiset (Nat × Nat)) := by
      have hcongr : (bs.getD i []).filter
            (fun e => hash e.1 % (orig.length * 2) == i + orig.length) =
          (bs.getD i []).filter
            (fun e => !(hash e.1 % (orig.length * 2) == i)) := by
        refine List.filter_congr (fun e hme => ?_)
        show (hash e.1 % (orig.length * 2) == i + orig.length) =
          !(hash e.1 % (orig.length * 2) == i)
        rcases htgt e hme with hc | hc
        · have h1 : (hash e.1 % (orig.length * 2) == i) = true := by simp [hc]
          have h2 : (hash e.1 % (orig.length * 2) == i + orig.length) = false := by
            simp only [beq_eq_false_iff_ne, ne_eq, hc]
            omega
          rw [h1, h2]
          rfl
        · have h1 : (hash e.1 % (orig.length * 2) == i) = false := by
            simp only [beq_eq_false_iff_ne, ne_eq, hc]
            omega
          have h2 : (hash e.1 % (orig.length * 2) == i + orig.length) = true := by
            simp [hc]
          rw [h1, h2]
          rfl
      rw [hcongr, Multiset.coe_add, Multiset.coe_eq_coe]
      exact (bs.getD i []).filter_append_perm _
    have hflat : ((r.2.set i r.1).flatten : Multiset (Nat × Nat)) =
        (bs.flatten : Multiset (Nat × Nat)) := by
      rw [hmv.1, hchain]
      have h1 := flatten_set_add r.2 i
        ((orig.getD i []).filter
          (fun e => hash e.1 % (orig.length * 2) == i)) hilt2
      have h2 := flatten_set_add bs (i + orig.length)
        (bs.getD (i + orig.length) [] ++
          (bs.getD i []).filter
            (fun e => hash e.1 % (orig.length * 2) == i + orig.length)) hlt
      rw [← hr2eq] at h2
      have hgd : r.2.getD i [] = bs.getD i [] := by
        rw [hmv.2 i, if_neg hne.symm]
      have hempty : bs.getD (i + orig.length) [] = [] := by
        have hh := hhigh i hi
        rw [if_neg (by omega)] at hh
        exact hh
      rw [hempty, List.nil_append, Multiset.coe_nil, add_zero] at h2
      rw [hgd, hchain] at h1
      rw [hchain] at h2 hsplit
      have hsplit2 : ((orig.getD i []).filter
            (fun e => hash e.1 % (orig.length * 2) == i + orig.length) :
              Multiset (Nat × Nat)) +
          ((orig.getD i []).filter
            (fun e => hash e.1 % (orig.length * 2) == i) :
              Multiset (Nat × Nat)) =
          (orig.getD i [] : Multiset (Nat × Nat)) := by
        rw [add_comm]
        exact hsplit
      rw [h2] at h1
      rw [add_assoc, hsplit2] at h1
      exact add_right_cancel h1
    have hnext := ih (i + 1) (r.2.set i r.1) (by omega) hset hbs3low hbs3high
    have hstep : rehashLoop hash (orig.length * 2) i (fuel + 1) bs =
        rehashLoop hash (orig.length * 2) (i + 1) fuel (r.2.set i r.1) := rfl
    rw [hstep]
    exact ⟨hnext.1, hnext.2.1.trans hflat, hnext.2.2.1, hnext.2.2.2⟩

lemma rehashLoop_length (hash : Nat → Nat) (n : Nat) :
    ∀ (fuel i : Nat) (bs : List (List (Nat × Nat))),
      (rehashLoop hash n i fuel bs).length = bs.length := by
  intro fuel
  induction fuel with
  | zero => intro i bs; rfl
  | succ fuel ih =>
    intro i bs
    have hstep : rehashLoop hash n i (fuel + 1) bs =
        rehashLoop hash n (i + 1) fuel
          ((moveEntries hash n i (bs.getD i []) bs).2.set i
            (moveEntries hash n i (bs.getD i []) bs).1) := rfl
    rw [hstep, ih, List.length_set]
    exact moveEntries_length ..

lemma rehash_mSize (t : HashMap) : (rehash t).mSize = t.mSize := rfl

lemma rehash_mHash (t : HashMap) : (rehash t).mHash = t.mHash := rfl

lemma rehash_mData (t : HashMap) :
    (rehash t).mData = rehashLoop t.mHash (t.mData.length * 2) 0
      t.mData.length (t.mData ++ List.replicate t.mData.length []) := rfl

lemma rehash_length (t : HashMap) :
    (rehash t).mData.length = t.mData.length * 2 := by
  rw [rehash_mData, rehashLoop_length, List.length_append,
    List.length_replicate]
  omega

/-- What rehash does to a well-placed table: the bucket count doubles, the
content is preserved as a multiset, and each old bucket m splits into its
stay-part (still bucket m) and its move-part (bucket m + old count), both in
their original relative order. -/
lemma rehash_spec (t : HashMap) (h : WF t) :
    (rehash t).mData.length = t.mData.length * 2 ∧
      ((entries (rehash t) : Multiset (Nat × Nat)) =
        (entries t : Multiset (Nat × Nat))) ∧
      (∀ m < t.mData.length, (rehash t).mData.getD m [] =
        (t.mData.getD m []).filter
          (fun e => t.mHash e.1 % (t.mData.length * 2) == m)) ∧
      (∀ m < t.mData.length, (rehash t).mData.getD (m + t.mData.length) [] =
        (t.mData.getD m []).filter
          (fun e => t.mHash e.1 % (t.mData.length * 2) == m + t.mData.length)) := by
  have hs := rehashLoop_spec t.mHash t.mData h.2 t.mData.length 0
    (t.mData ++ List.replicate t.mData.length [])
    (by omega)
    (by rw [List.length_append, List.length_replicate]; omega)
    (fun m hm => by
      rw [if_neg (show ¬ m < 0 by omega), getD_append_left _ _ _ _ hm])
    (fun m hm => by
      rw [if_neg (show ¬ m < 0 by omega),
        getD_append_right _ _ _ _ (by omega)]
      exact getD_replicate_nil _ _)
  refine ⟨?_, ?_, ?_, ?_⟩
  · rw [rehash_mData]
    exact hs.1
  · show ((rehash t).mData.flatten : Multiset (Nat × Nat)) =
      (t.mData.flatten : Multiset (Nat × Nat))
    rw [rehash_mData, hs.2.1, List.flatten_append, flatten_replicate_nil,
      List.append_nil]
  · intro m hm
    rw [rehash_mData]
    exact hs.2.2.1 m hm
  · intro m hm
    rw [rehash_mData]
    exact hs.2.2.2 m hm

lemma WF_rehash (t : HashMap) (h : WF t) : WF (rehash t) := by
  obtain ⟨hlen, -, hlow, hhigh⟩ := rehash_spec t h
  have h0 := h.1
  constructor
  · rw [hlen]; omega
  · intro i hi e he
    rw [hlen] at hi
    rw [rehash_mHash, hlen]
    by_cases hcase : i < t.mData.length
    · rw [hlow i hcase] at he
      have hbeq := (List.mem_filter.mp he).2
      simpa using hbeq
    · have hm : i - t.mData.length < t.mData.length := by omega
      have hi2 : i = (i - t.mData.length) + t.mData.length := by omega
      rw [hi2] at he
      rw [hhigh _ hm] at he
      have hbeq := (List.mem_filter.mp he).2
      rw [hi2]
      simpa using hbeq

lemma entries_rehash (t : HashMap) (h : WF t) :
    ((entries (rehash t) : Multiset (Nat × Nat))) =
      (entries t : Multiset (Nat × Nat)) :=
  (rehash_spec t h).2.1

lemma keys_perm_of_entries (t1 t2 : HashMap)
    (h : (entries t1 : Multiset (Nat × Nat)) = (entries t2 : Multiset (Nat × Nat))) :
    (keys t1).Perm (keys t2) := by
  have hp : (entries t1).Perm (entries t2) := Multiset.coe_eq_coe.mp h
  rw [keys, keys]
  exact hp.map Prod.fst

lemma nodupKeys_rehash (t : HashMap) (h : WF t) (hnd : NodupKeys t) :
    NodupKeys (rehash t) := by
  have hp := keys_perm_of_entries (rehash t) t (entries_rehash t h)
  rw [NodupKeys] at hnd ⊢
  exact hp.nodup_iff.mpr hnd

/-- The growth pre-check step of insert, bundled: it preserves the
representation invariant, the stored content, the size and the hash
function. -/
lemma grow_facts (t : HashMap) (h : WF t) :
    WF (if 1 ≤ loadFactor t then rehash t else t) ∧
      ((entries (if 1 ≤ loadFactor t then rehash t else t) :
          Multiset (Nat × Nat)) = (entries t : Multiset (Nat × Nat))) ∧
      (if 1 ≤ loadFactor t then rehash t else t).mSize = t.mSize ∧
      (if 1 ≤ loadFactor t then rehash t else t).mHash = t.mHash := by
  split
  · exact ⟨WF_rehash t h, entries_rehash t h, rfl, rfl⟩
  · exact ⟨h, rfl, rfl, rfl⟩

/-! Facts about the chain scan and the chain removal loop. -/

lemma lookupChain_none_iff (k : Nat) :
    ∀ chain : List (Nat × Nat),
      lookupChain k chain = none ↔ ∀ e ∈ chain, e.1 ≠ k := by
  intro chain
  induction chain with
  | nil => simp [lookupChain]
  | cons e rest ih =>
    rw [lookupChain]
    by_cases he : e.1 = k
    · rw [if_pos he]
      simp [he]
    · rw [if_neg he]
      simp [he, ih]

lemma lookupChain_some (k : Nat) :
    ∀ (chain : List (Nat × Nat)) (r : Nat × (Nat × Nat)),
      lookupChain k chain = some r →
      chain[r.1]? = some r.2 ∧ r.2.1 = k := by
  intro chain
  induction chain with
  | nil => intro r h; simp [lookupChain] at h
  | cons e rest ih =>
    intro r h
    rw [lookupChain] at h
    by_cases he : e.1 = k
    · rw [if_pos he] at h
      cases h
      exact ⟨by simp, he⟩
    · rw [if_neg he] at h
      cases hrec : lookupChain k rest with
      | none => rw [hrec] at h; simp at h
      | some r0 =>
        rw [hrec, Option.map_some'] at h
        cases h
        have hr := ih r0 hrec
        exact ⟨by simpa using hr.1, hr.2⟩

lemma lookupChain_mem (k v : Nat) :
    ∀ chain : List (Nat × Nat),
      ((chain.map Prod.fst).Nodup) → (k, v) ∈ chain →
      ∃ j, lookupChain k chain = some (j, (k, v)) := by
  intro chain
  induction chain with
  | nil => intro _ h; simp at h
  | cons e rest ih =>
    intro hnd hmem
    rw [List.map_cons, List.nodup_cons] at hnd
    rcases List.mem_cons.mp hmem with he | he
    · refine ⟨0, ?_⟩
      rw [lookupChain, if_pos (by rw [← he])]
      rw [← he]
    · by_cases hek : e.1 = k
      · exfalso
        apply hnd.1
        rw [hek]
        exact List.mem_map.mpr ⟨(k, v), he, rfl⟩
      · obtain ⟨j, hj⟩ := ih hnd.2 he
        refine ⟨j + 1, ?_⟩
        rw [lookupChain, if_neg hek, hj]
        rfl

lemma eraseFromChain_none_iff (k : Nat) :
    ∀ chain : List (Nat × Nat),
      eraseFromChain k chain = none ↔ ∀ e ∈ chain, e.1 ≠ k := by
  intro chain
  induction chain with
  | nil => simp [eraseFromChain]
  | cons e rest ih =>
    rw [eraseFromChain]
    by_cases he : e.1 = k
    · rw [if_pos he]
      simp [he]
    · rw [if_neg he]
      simp [he, ih]

lemma eraseFromChain_some (k : Nat) :
    ∀ (chain c : List (Nat × Nat)),
      eraseFromChain k chain = some c →
      ∃ v, chain.Perm ((k, v) :: c) := by
  intro chain
  induction chain with
  | nil => intro c h; simp [eraseFromChain] at h
  | cons e rest ih =>
    intro c h
    rw [eraseFromChain] at h
    by_cases he : e.1 = k
    · rw [if_pos he] at h
      cases h
      refine ⟨e.2, ?_⟩
      have heta : (k, e.2) = e := by rw [← he]
      rw [heta]
    · rw [if_neg he] at h
      cases hrec : eraseFromChain k rest with
      | none => rw [hrec] at h; simp at h
      | some c0 =>
        rw [hrec, Option.map_some'] at h
        cases h
        obtain ⟨v, hv⟩ := ih c0 hrec
        refine ⟨v, ?_⟩
        exact (hv.cons e).trans (List.Perm.swap _ _ _)

/-! Bridges between the flattened entry list and single buckets. -/

lemma getD_get (l : List (List (Nat × Nat))) (i : Fin l.length) :
    l.getD i.1 [] = l.get i := by
  rw [List.getD_eq_getElem?_getD, List.getElem?_eq_getElem i.2]
  rfl

lemma mem_bucket_of_mem_entries (t : HashMap) (h : WF t) (e : Nat × Nat)
    (he : e ∈ entries t) : e ∈ t.mData.getD (indexOf t e.1) [] := by
  rw [entries] at he
  obtain ⟨c, hc, hec⟩ := List.mem_flatten.mp he
  obtain ⟨i, hget⟩ := List.mem_iff_get.mp hc
  have hiw := h.2 i.1 i.2 e (by rw [getD_get, hget]; exact hec)
  rw [indexOf, hiw, getD_get, hget]
  exact hec

lemma mem_entries_of_mem_bucket (t : HashMap) (h : 0 < t.mData.length)
    (i : Nat) (hi : i < t.mData.length) (e : Nat × Nat)
    (he : e ∈ t.mData.getD i []) : e ∈ entries t := by
  rw [entries]
  exact List.mem_flatten.mpr ⟨t.mData.getD i [], getD_mem _ _ hi, he⟩

lemma mem_keys_iff (t : HashMap) (k : Nat) :
    k ∈ keys t ↔ ∃ v, (k, v) ∈ entries t := by
  rw [keys]
  constructor
  · intro h
    obtain ⟨e, he, hek⟩ := List.mem_map.mp h
    refine ⟨e.2, ?_⟩
    have heta : (k, e.2) = e := by rw [← hek]
    rw [heta]
    exact he
  · rintro ⟨v, hv⟩
    exact List.mem_map.mpr ⟨(k, v), hv, rfl⟩

lemma indexOf_lt (t : HashMap) (h : 0 < t.mData.length) (k : Nat) :
    indexOf t k < t.mData.length := by
  rw [indexOf]
  exact Nat.mod_lt _ h

/-- Under the placement invariant, a key is stored iff its own bucket's chain
holds an entry with that key. -/
lemma keys_bucket (t : HashMap) (h : WF t) (k : Nat) :
    k ∈ keys t ↔ ∃ e ∈ t.mData.getD (indexOf t k) [], e.1 = k := by
  rw [mem_keys_iff]
  constructor
  · rintro ⟨v, hv⟩
    exact ⟨(k, v), mem_bucket_of_mem_entries t h (k, v) hv, rfl⟩
  · rintro ⟨e, he, hek⟩
    refine ⟨e.2, ?_⟩
    have heta : (k, e.2) = e := by rw [← hek]
    rw [heta]
    exact mem_entries_of_mem_bucket t h.1 (indexOf t k)
      (indexOf_lt t h.1 k) e he

lemma chain_keys_nodup (t : HashMap) (hnd : NodupKeys t) (i : Nat)
    (hi : i < t.mData.length) :
    ((t.mData.getD i []).map Prod.fst).Nodup := by
  have hsub : (t.mData.getD i []).Sublist (entries t) := by
    rw [entries]
    exact List.sublist_flatten_of_mem (getD_mem _ _ hi)
  rw [NodupKeys, keys] at hnd
  exact hnd.sublist (hsub.map Prod.fst)

/-! The contract of insert on tables satisfying the representation
invariant. -/

lemma insert_present (t : HashMap) (kv : Nat × Nat) (h : WF t)
    (hnd : NodupKeys t) (hk : kv.1 ∈ keys t) :
    (insert t kv).inserted = false ∧
      (insert t kv).table.mSize = t.mSize ∧
      ((entries (insert t kv).table : Multiset (Nat × Nat)) =
        (entries t : Multiset (Nat × Nat))) ∧
      WF (insert t kv).table ∧ NodupKeys (insert t kv).table ∧
      ∃ v, (kv.1, v) ∈ entries t ∧
        iterEntry (insert t kv).table (insert t kv).pos = some (kv.1, v) := by
  obtain ⟨hwf1, hent1, hsize1, hhash1⟩ := grow_facts t h
  set g := if 1 ≤ loadFactor t then rehash t else t with hg
  have hknd : NodupKeys g := by
    rw [NodupKeys]
    have hh := hnd
    rw [NodupKeys] at hh
    exact (keys_perm_of_entries g t hent1).nodup_iff.mpr hh
  have hkg : kv.1 ∈ keys g :=
    ((keys_perm_of_entries g t hent1).mem_iff).mpr hk
  obtain ⟨v, hv⟩ := (mem_keys_iff g kv.1).mp hkg
  have hvb : (kv.1, v) ∈ g.mData.getD (indexOf g kv.1) [] :=
    mem_bucket_of_mem_entries g hwf1 (kv.1, v) hv
  obtain ⟨j, hlook⟩ := lookupChain_mem kv.1 v _
    (chain_keys_nodup g hknd _ (indexOf_lt g hwf1.1 kv.1)) hvb
  have hins : insert t kv =
      ⟨g, (indexOf g kv.1, j), false⟩ := by
    simp only [insert, ← hg]
    rw [hlook]
  rw [hins]
  refine ⟨rfl, hsize1, hent1, hwf1, hknd, v, ?_, ?_⟩
  · exact (Multiset.coe_eq_coe.mp hent1).mem_iff.mp hv
  · rw [iterEntry]
    have hj := (lookupChain_some kv.1 _ _ hlook).1
    simpa using hj

lemma insert_absent (t : HashMap) (kv : Nat × Nat) (h : WF t)
    (hnd : NodupKeys t) (hk : kv.1 ∉ keys t) :
    (insert t kv).inserted = true ∧
      (insert t kv).table.mSize = t.mSize + 1 ∧
      ((entries (insert t kv).table : Multiset (Nat × Nat)) =
        kv ::ₘ (entries t : Multiset (Nat × Nat))) ∧
      WF (insert t kv).table ∧ NodupKeys (insert t kv).table ∧
      iterEntry (insert t kv).table (insert t kv).pos = some kv ∧
      (insert t kv).pos.1 = indexOf (insert t kv).table kv.1 ∧
      (insert t kv).pos.2 + 1 =
        ((insert t kv).table.mData.getD (insert t kv).pos.1 []).length := by
  obtain ⟨hwf1, hent1, hsize1, hhash1⟩ := grow_facts t h
  set g := if 1 ≤ loadFactor t then rehash t else t with hg
  have hknd : NodupKeys g := by
    rw [NodupKeys]
    have hh := hnd
    rw [NodupKeys] at hh
    exact (keys_perm_of_entries g t hent1).nodup_iff.mpr hh
  have hkg : kv.1 ∉ keys g := fun hc =>
    hk ((keys_perm_of_entries g t hent1).mem_iff.mp hc)
  have hnone : lookupChain kv.1 (g.mData.getD (indexOf g kv.1) []) = none := by
    rw [lookupChain_none_iff]
    intro e he hek
    exact hkg ((keys_bucket g hwf1 kv.1).mpr ⟨e, he, hek⟩)
  have hidx : indexOf g kv.1 < g.mData.length := indexOf_lt g hwf1.1 kv.1
  have hins : insert t kv =
      ⟨⟨g.mData.set (indexOf g kv.1) (g.mData.getD (indexOf g kv.1) [] ++ [kv]),
        g.mHash, g.mSize + 1⟩,
        (indexOf g kv.1, (g.mData.getD (indexOf g kv.1) []).length), true⟩ := by
    simp only [insert, ← hg]
    rw [hnone]
  set t2 : HashMap :=
    ⟨g.mData.set (indexOf g kv.1) (g.mData.getD (indexOf g kv.1) [] ++ [kv]),
      g.mHash, g.mSize + 1⟩ with ht2
  have hentryg : ((entries t2 : Multiset (Nat × Nat))) =
      kv ::ₘ (entries g : Multiset (Nat × Nat)) := by
    have hadd := flatten_set_add g.mData (indexOf g kv.1)
      (g.mData.getD (indexOf g kv.1) [] ++ [kv]) hidx
    rw [← Multiset.coe_add] at hadd
    have hstep : (entries t2 : Multiset (Nat × Nat)) +
        (g.mData.getD (indexOf g kv.1) [] : Multiset (Nat × Nat)) =
        (kv ::ₘ (entries g : Multiset (Nat × Nat))) +
        (g.mData.getD (indexOf g kv.1) [] : Multiset (Nat × Nat)) := by
      have hcoe : (entries t2 : Multiset (Nat × Nat)) =
          ((g.mData.set (indexOf g kv.1)
            (g.mData.getD (indexOf g kv.1) [] ++ [kv])).flatten :
              Multiset (Nat × Nat)) := rfl
      have hge : (entries g : Multiset (Nat × Nat)) =
          (g.mData.flatten : Multiset (Nat × Nat)) := rfl
      rw [hcoe, hadd, hge, Multiset.coe_singleton, ← Multiset.singleton_add]
      abel
    exact add_right_cancel hstep
  have hentry : ((entries t2 : Multiset (Nat × Nat))) =
      kv ::ₘ (entries t : Multiset (Nat × Nat)) := by
    rw [hentryg, hent1]
  have hlen2 : t2.mData.length = g.mData.length := List.length_set ..
  have hwf2 : WF t2 := by
    constructor
    · rw [hlen2]
      exact hwf1.1
    · intro i hi e he
      rw [hlen2] at hi
      have hhash2 : t2.mHash = g.mHash := rfl
      rw [hhash2, hlen2]
      by_cases hieq : i = indexOf g kv.1
      · subst hieq
        have hche : t2.mData.getD (indexOf g kv.1) [] =
            g.mData.getD (indexOf g kv.1) [] ++ [kv] :=
          getD_set_self _ _ _ _ hidx
        rw [hche] at he
        rcases List.mem_append.mp he with he | he
        · exact hwf1.2 _ hi e he
        · have hekv : e = kv := by simpa using he
          rw [hekv]
          rfl
      · have hche : t2.mData.getD i [] = g.mData.getD i [] :=
          getD_set_ne _ _ _ _ _ (fun hh => hieq hh.symm)
        rw [hche] at he
        exact hwf1.2 _ hi e he
  have hkp : (keys t2).Perm (kv.1 :: keys g) := by
    have hlist : ((entries t2 : List (Nat × Nat)) : Multiset (Nat × Nat)) =
        ((kv :: entries g : List (Nat × Nat)) : Multiset (Nat × Nat)) := by
      rw [hentryg, Multiset.cons_coe]
    have hp := Multiset.coe_eq_coe.mp hlist
    have hm := hp.map Prod.fst
    simpa [keys] using hm
  have hnd2 : NodupKeys t2 := by
    rw [NodupKeys]
    refine hkp.nodup_iff.mpr ?_
    rw [List.nodup_cons]
    have hh := hknd
    rw [NodupKeys] at hh
    exact ⟨hkg, hh⟩
  rw [hins]
  refine ⟨rfl, by rw [← hsize1], hentry, hwf2, hnd2, ?_, ?_, ?_⟩
  · rw [iterEntry]
    have hche : t2.mData.getD (indexOf g kv.1) [] =
        g.mData.getD (indexOf g kv.1) [] ++ [kv] :=
      getD_set_self _ _ _ _ hidx
    show (t2.mData.getD (indexOf g kv.1) [])[(g.mData.getD (indexOf g kv.1) []).length]? = some kv
    rw [hche]
    exact List.getElem?_concat_length _ _
  · show indexOf g kv.1 = indexOf t2 kv.1
    rw [indexOf, indexOf, hlen2]
  · show (g.mData.getD (indexOf g kv.1) []).length + 1 =
      (t2.mData.getD (indexOf g kv.1) []).length
    rw [getD_set_self _ _ _ _ hidx, List.length_append]
    rfl

/-! The contract of erase on tables satisfying the representation
invariant. -/

lemma erase_absent (t : HashMap) (h : WF t) (k : Nat) (hk : k ∉ keys t) :
    erase t k = t := by
  have hnone : eraseFromChain k (t.mData.getD (indexOf t k) []) = none := by
    rw [eraseFromChain_none_iff]
    intro e he hek
    exact hk ((keys_bucket t h k).mpr ⟨e, he, hek⟩)
  simp only [erase]
  rw [hnone]

lemma erase_present (t : HashMap) (h : WF t) (hnd : NodupKeys t) (k : Nat)
    (hk : k ∈ keys t) :
    ∃ v, ((entries t : Multiset (Nat × Nat)) =
        (k, v) ::ₘ (entries (erase t k) : Multiset (Nat × Nat))) ∧
      (erase t k).mSize = t.mSize - 1 ∧
      (erase t k).mData.length = t.mData.length ∧
      (erase t k).mHash = t.mHash ∧
      WF (erase t k) ∧ NodupKeys (erase t k) ∧ k ∉ keys (erase t k) := by
  obtain ⟨e0, he0, he0k⟩ := (keys_bucket t h k).mp hk
  have hidx := indexOf_lt t h.1 k
  cases hsome : eraseFromChain k (t.mData.getD (indexOf t k) []) with
  | none =>
    exact absurd he0k (eraseFromChain_none_iff k _ |>.mp hsome e0 he0)
  | some c =>
    obtain ⟨v, hperm⟩ := eraseFromChain_some k _ c hsome
    have hers : erase t k =
        ⟨t.mData.set (indexOf t k) c, t.mHash, t.mSize - 1⟩ := by
      simp only [erase]
      rw [hsome]
    set t2 : HashMap :=
      ⟨t.mData.set (indexOf t k) c, t.mHash, t.mSize - 1⟩ with ht2
    have hlen2 : t2.mData.length = t.mData.length := List.length_set ..
    have hentry : ((entries t : Multiset (Nat × Nat))) =
        (k, v) ::ₘ (entries t2 : Multiset (Nat × Nat)) := by
      have hadd := flatten_set_add t.mData (indexOf t k) c hidx
      have hch : (t.mData.getD (indexOf t k) [] : Multiset (Nat × Nat)) =
          (k, v) ::ₘ (c : Multiset (Nat × Nat)) := by
        rw [Multiset.coe_eq_coe.mpr hperm, Multiset.cons_coe]
      rw [hch] at hadd
      have hcoe : (entries t2 : Multiset (Nat × Nat)) =
          ((t.mData.set (indexOf t k) c).flatten : Multiset (Nat × Nat)) := rfl
      have hte : (entries t : Multiset (Nat × Nat)) =
          (t.mData.flatten : Multiset (Nat × Nat)) := rfl
      have hstep : (entries t : Multiset (Nat × Nat)) +
          (c : Multiset (Nat × Nat)) =
          ((k, v) ::ₘ (entries t2 : Multiset (Nat × Nat))) +
          (c : Multiset (Nat × Nat)) := by
        rw [hte, ← hadd, hcoe, ← Multiset.singleton_add,
          ← Multiset.singleton_add]
        abel
      exact add_right_cancel hstep
    have hwf2 : WF t2 := by
      constructor
      · rw [hlen2]
        exact h.1
      · intro i hi e he
        rw [hlen2] at hi
        have hhash2 : t2.mHash = t.mHash := rfl
        rw [hhash2, hlen2]
        by_cases hieq : i = indexOf t k
        · subst hieq
          have hche : t2.mData.getD (indexOf t k) [] = c :=
            getD_set_self _ _ _ _ hidx
          rw [hche] at he
          have hec : e ∈ t.mData.getD (indexOf t k) [] :=
            hperm.mem_iff.mpr (List.mem_cons_of_mem _ he)
          exact h.2 _ hi e hec
        · have hche : t2.mData.getD i [] = t.mData.getD i [] :=
            getD_set_ne _ _ _ _ _ (fun hh => hieq hh.symm)
          rw [hche] at he
          exact h.2 _ hi e he
    have hkp : (keys t).Perm (k :: keys t2) := by
      have hlist : ((entries t : List (Nat × Nat)) : Multiset (Nat × Nat)) =
          (((k, v) :: entries t2 : List (Nat × Nat)) : Multiset (Nat × Nat)) := by
        rw [hentry, Multiset.cons_coe]
      have hp := Multiset.coe_eq_coe.mp hlist
      have hm := hp.map Prod.fst
      simpa [keys] using hm
    have hnd2 : NodupKeys t2 ∧ k ∉ keys t2 := by
      have hh := hnd
      rw [NodupKeys] at hh
      have hcons := hkp.nodup_iff.mp hh
      rw [List.nodup_cons] at hcons
      exact ⟨hcons.2, hcons.1⟩
    refine ⟨v, ?_, ?_, ?_, ?_, ?_, ?_, ?_⟩ <;> rw [hers]
    · exact hentry
    · exact hlen2
    · exact hwf2
    · exact hnd2.1
    · exact hnd2.2

/-- A list member sits at the position getElem? reports. -/
lemma mem_of_getElem_some {α : Type} (l : List α) (n : Nat) (a : α)
    (h : l[n]? = some a) : a ∈ l := by
  obtain ⟨hlt, he⟩ := List.getElem?_eq_some.mp h
  exact he ▸ List.getElem_mem ..

/-! The contract of at. -/

lemma atKey_spec (t : HashMap) (h : WF t) (hnd : NodupKeys t) (k : Nat) :
    (atKey t k = Except.error () ↔ k ∉ keys t) ∧
      ∀ v, atKey t k = Except.ok v ↔ (k, v) ∈ entries t := by
  cases hcase : lookupChain k (t.mData.getD (indexOf t k) []) with
  | none =>
    have hnk : k ∉ keys t := by
      intro hkk
      obtain ⟨e, he, hek⟩ := (keys_bucket t h k).mp hkk
      exact (lookupChain_none_iff k _ |>.mp hcase) e he hek
    have hat : atKey t k = Except.error () := by
      simp only [atKey]
      rw [hcase]
    constructor
    · rw [hat]
      exact ⟨fun _ => hnk, fun _ => rfl⟩
    · intro v
      rw [hat]
      constructor
      · intro hok
        cases hok
      · intro hmem
        exact absurd ((mem_keys_iff t k).mpr ⟨v, hmem⟩) hnk
  | some r =>
    have hsome := lookupChain_some k _ r hcase
    have hrmem : r.2 ∈ t.mData.getD (indexOf t k) [] :=
      mem_of_getElem_some _ _ _ hsome.1
    have hrent : r.2 ∈ entries t :=
      mem_entries_of_mem_bucket t h.1 _ (indexOf_lt t h.1 k) r.2 hrmem
    have hketa : (k, r.2.2) = r.2 := by
      rw [← hsome.2]
    have hkk : k ∈ keys t :=
      (mem_keys_iff t k).mpr ⟨r.2.2, by rw [hketa]; exact hrent⟩
    have hat : atKey t k = Except.ok r.2.2 := by
      simp only [atKey]
      rw [hcase]
    constructor
    · rw [hat]
      constructor
      · intro hc
        cases hc
      · intro hc
        exact absurd hkk hc
    · intro v
      rw [hat]
      constructor
      · intro hok
        have hv : r.2.2 = v := by injection hok
        rw [← hv, hketa]
        exact hrent
      · intro hmem
        obtain ⟨j, hj⟩ := lookupChain_mem k v _
          (chain_keys_nodup t hnd _ (indexOf_lt t h.1 k))
          (mem_bucket_of_mem_entries t h (k, v) hmem)
        rw [hcase] at hj
        cases hj
        rfl

/-! Size and bucket-count bookkeeping for the load-factor claims. -/

lemma loadFactor_ge_one_iff (t : HashMap) (h : 0 < t.mData.length) :
    1 ≤ loadFactor t ↔ t.mData.length ≤ t.mSize := by
  rw [loadFactor]
  exact Nat.one_le_div_iff h

/-- The invariant that makes the (corrected) load-factor bound hold: at least
one bucket, and never more entries than buckets. -/
def SizeInv (t : HashMap) : Prop :=
  0 < t.mData.length ∧ t.mSize ≤ t.mData.length

lemma sizeInv_insert (t : HashMap) (h : SizeInv t) (kv : Nat × Nat) :
    SizeInv (insert t kv).table := by
  set g := if 1 ≤ loadFactor t then rehash t else t with hg
  have hgfacts : 0 < g.mData.length ∧ g.mSize + 1 ≤ g.mData.length + 1 ∧
      (g.mSize = t.mSize) ∧
      (1 ≤ loadFactor t → g.mSize + 1 ≤ g.mData.length) ∧
      (¬ 1 ≤ loadFactor t → g.mSize + 1 ≤ g.mData.length) := by
    rw [hg]
    split
    · next hcond =>
      have hge := (loadFactor_ge_one_iff t h.1).mp hcond
      rw [rehash_length, rehash_mSize]
      have h1 := h.1
      have h2 := h.2
      refine ⟨by omega, by omega, rfl, fun _ => by omega, fun _ => by omega⟩
    · next hcond =>
      have hlt : ¬ t.mData.length ≤ t.mSize := fun hc =>
        hcond ((loadFactor_ge_one_iff t h.1).mpr hc)
      have h1 := h.1
      refine ⟨by omega, by omega, rfl, fun hc => absurd hc hcond,
        fun _ => by omega⟩
  have hbound : g.mSize + 1 ≤ g.mData.length := by
    by_cases hc : 1 ≤ loadFactor t
    · exact hgfacts.2.2.2.1 hc
    · exact hgfacts.2.2.2.2 hc
  cases hcase : lookupChain kv.1 (g.mData.getD (indexOf g kv.1) []) with
  | some r =>
    have hins : insert t kv = ⟨g, (indexOf g kv.1, r.1), false⟩ := by
      simp only [insert, ← hg]
      rw [hcase]
    rw [hins]
    refine ⟨hgfacts.1, ?_⟩
    show g.mSize ≤ g.mData.length
    omega
  | none =>
    have hins : insert t kv =
        ⟨⟨g.mData.set (indexOf g kv.1)
            (g.mData.getD (indexOf g kv.1) [] ++ [kv]),
          g.mHash, g.mSize + 1⟩,
          (indexOf g kv.1, (g.mData.getD (indexOf g kv.1) []).length),
          true⟩ := by
      simp only [insert, ← hg]
      rw [hcase]
    rw [hins]
    constructor
    · show 0 < (g.mData.set (indexOf g kv.1)
        (g.mData.getD (indexOf g kv.1) [] ++ [kv])).length
      rw [List.length_set]
      exact hgfacts.1
    · show g.mSize + 1 ≤ (g.mData.set (indexOf g kv.1)
        (g.mData.getD (indexOf g kv.1) [] ++ [kv])).length
      rw [List.length_set]
      exact hbound

lemma erase_shape (t : HashMap) (k : Nat) :
    ((erase t k).mSize = t.mSize ∨ (erase t k).mSize = t.mSize - 1) ∧
      (erase t k).mData.length = t.mData.length ∧
      (erase t k).mHash = t.mHash := by
  cases hcase : eraseFromChain k (t.mData.getD (indexOf t k) []) with
  | none =>
    have hs : erase t k = t := by
      simp only [erase]
      rw [hcase]
    rw [hs]
    exact ⟨Or.inl rfl, rfl, rfl⟩
  | some c =>
    have hs : erase t k = ⟨t.mData.set (indexOf t k) c, t.mHash, t.mSize - 1⟩ := by
      simp only [erase]
      rw [hcase]
    rw [hs]
    exact ⟨Or.inr rfl, List.length_set .., rfl⟩

lemma clear_shape (t : HashMap) :
    (clear t).mSize = 0 ∧ (clear t).mData.length = t.mData.length := by
  constructor
  · rfl
  · show (t.mData.map _).length = _
    exact List.length_map ..

lemma sizeInv_step (t : HashMap) (h : SizeInv t) (op : Op) :
    SizeInv (stepOp t op) := by
  cases op with
  | ins kv => exact sizeInv_insert t h kv
  | del k =>
    obtain ⟨hsz, hlen, -⟩ := erase_shape t k
    have h1 := h.1
    have h2 := h.2
    constructor
    · show 0 < (erase t k).mData.length
      rw [hlen]
      exact h1
    · show (erase t k).mSize ≤ (erase t k).mData.length
      rw [hlen]
      rcases hsz with hsz | hsz <;> rw [hsz] <;> omega
  | clr =>
    obtain ⟨hsz, hlen⟩ := clear_shape t
    exact ⟨by rw [show (stepOp t Op.clr).mData.length = (clear t).mData.length from rfl, hlen]; exact h.1,
      by rw [show (stepOp t Op.clr).mSize = (clear t).mSize from rfl, hsz]; omega⟩

lemma sizeInv_runOps (ops : List Op) :
    ∀ t, SizeInv t → SizeInv (runOps t ops) := by
  induction ops with
  | nil => intro t h; exact h
  | cons op rest ih =>
    intro t h
    exact ih _ (sizeInv_step t h op)

lemma foldl_pushEntry_mSize :
    ∀ (l : List (Nat × Nat)) (t : HashMap),
      (l.foldl pushEntry t).mSize = t.mSize := by
  intro l
  induction l with
  | nil => intro t; rfl
  | cons e rest ih =>
    intro t
    rw [List.foldl_cons, ih]
    rfl

lemma foldl_pushEntry_length :
    ∀ (l : List (Nat × Nat)) (t : HashMap),
      (l.foldl pushEntry t).mData.length = t.mData.length := by
  intro l
  induction l with
  | nil => intro t; rfl
  | cons e rest ih =>
    intro t
    rw [List.foldl_cons, ih]
    exact List.length_set ..

lemma fromList_mSize (hash : Nat → Nat) (l : List (Nat × Nat)) :
    (fromList hash l).mSize = l.length := by
  show (l.foldl pushEntry _).mSize = l.length
  rw [foldl_pushEntry_mSize]

lemma fromList_length (hash : Nat → Nat) (l : List (Nat × Nat)) :
    (fromList hash l).mData.length =
      if l.length * 2 = 0 then 1 else l.length * 2 := by
  show (l.foldl pushEntry _).mData.length = _
  rw [foldl_pushEntry_length, List.length_replicate]

lemma sizeInv_initTable (hash : Nat → Nat)
    (init : Option (List (Nat × Nat))) : SizeInv (initTable hash init) := by
  cases init with
  | none => exact ⟨by simp [initTable, mkEmpty], by simp [initTable, mkEmpty]⟩
  | some l =>
    constructor
    · show 0 < (fromList hash l).mData.length
      rw [fromList_length]
      split <;> omega
    · show (fromList hash l).mSize ≤ (fromList hash l).mData.length
      rw [fromList_mSize, fromList_length]
      split
      · next hc => omega
      · omega

/-! The invariant behind the size-counts-distinct-keys claim. -/

def MapInv (t : HashMap) : Prop :=
  WF t ∧ NodupKeys t ∧ t.mSize = (entries t).length

lemma mapInv_mkEmpty (hash : Nat → Nat) : MapInv (mkEmpty hash) := by
  refine ⟨⟨by simp [mkEmpty], ?_⟩, ?_, rfl⟩
  · intro i hi e he
    exfalso
    rcases i with - | i <;> simp [mkEmpty] at he
  · rw [NodupKeys]
    simp [keys, entries, mkEmpty]

lemma mapInv_insert (t : HashMap) (h : MapInv t) (kv : Nat × Nat) :
    MapInv (insert t kv).table := by
  obtain ⟨hwf, hnd, hsz⟩ := h
  by_cases hk : kv.1 ∈ keys t
  · obtain ⟨-, hs, he, hw, hn, -⟩ := insert_present t kv hwf hnd hk
    refine ⟨hw, hn, ?_⟩
    have hcard := congrArg Multiset.card he
    simp only [Multiset.coe_card] at hcard
    rw [hs, hsz, hcard]
  · obtain ⟨-, hs, he, hw, hn, -⟩ := insert_absent t kv hwf hnd hk
    refine ⟨hw, hn, ?_⟩
    have hcard := congrArg Multiset.card he
    simp only [Multiset.coe_card, Multiset.card_cons] at hcard
    rw [hs, hsz, hcard]

lemma mapInv_erase (t : HashMap) (h : MapInv t) (k : Nat) :
    MapInv (erase t k) := by
  obtain ⟨hwf, hnd, hsz⟩ := h
  by_cases hk : k ∈ keys t
  · obtain ⟨v, he, hs, -, -, hw, hn, -⟩ := erase_present t hwf hnd k hk
    refine ⟨hw, hn, ?_⟩
    have hcard := congrArg Multiset.card he
    simp only [Multiset.coe_card, Multiset.card_cons] at hcard
    rw [hs, hsz, hcard]
    omega
  · rw [erase_absent t hwf k hk]
    exact ⟨hwf, hnd, hsz⟩

lemma mapInv_runIE (ops : List OpIE) :
    ∀ t, MapInv t → MapInv (runIE t ops) := by
  induction ops with
  | nil => intro t h; exact h
  | cons op rest ih =>
    intro t h
    cases op with
    | ins kv => exact ih _ (mapInv_insert t h kv)
    | del k => exact ih _ (mapInv_erase t h k)

/-! Claim theorems. -/

/-- Claim C1, counterexample: already the first completed insertion into a
default-constructed table leaves size = 1 and bucket_count = 1, so the
real-valued load factor is 1, which exceeds the claimed bound 0.5 — the
growth check runs before the insertion, so the bound cannot hold right after
insert returns. -/
theorem C1_counterexample_half_bound :
    ¬ specLoadFactor (insert (mkEmpty (fun k => k)) (0, 5)).table ≤ 1 / 2 := by
  have h1 : (insert (mkEmpty (fun k => k)) (0, 5)).table.mSize = 1 := rfl
  have h2 : (insert (mkEmpty (fun k => k)) (0, 5)).table.mData.length = 1 := rfl
  rw [specLoadFactor, h1, h2]
  norm_num

/-- Claim C1, amended: for every table reachable by a constructor (default
or range/list) followed by any sequence of insert, erase and clear
operations, immediately after a further insert returns, the real-valued load
factor size / bucket_count is at most 1 — the size never exceeds the bucket
count, though it can exceed half of it. -/
theorem C1_load_factor_le_one (hash : Nat → Nat)
    (init : Option (List (Nat × Nat))) (ops : List Op) (kv : Nat × Nat) :
    specLoadFactor (insert (runOps (initTable hash init) ops) kv).table ≤ 1 := by
  have hinv := sizeInv_insert (runOps (initTable hash init) ops)
    (sizeInv_runOps ops _ (sizeInv_initTable hash init)) kv
  rw [specLoadFactor]
  rw [div_le_one (by exact_mod_cast hinv.1)]
  exact_mod_cast hinv.2

/-- Claim C2 (code bug): constructing from the sequence [(0, 1), (0, 2)]
with the identity hash keeps both pairs — size 2 and both entries reachable
by iteration — whereas default construction followed by the same two inserts
keeps only the first pair with size 1.  The range constructor does not
ignore later duplicate keys, so it is not equivalent to insert in sequence
order. -/
theorem C2_constructor_keeps_duplicates :
    (fromList (fun k => k) [(0, 1), (0, 2)]).mSize = 2 ∧
      entries (fromList (fun k => k) [(0, 1), (0, 2)]) = [(0, 1), (0, 2)] ∧
      (insert (insert (mkEmpty (fun k => k)) (0, 1)).table (0, 2)).table.mSize = 1 ∧
      entries (insert (insert (mkEmpty (fun k => k)) (0, 1)).table (0, 2)).table = [(0, 1)] :=
  ⟨rfl, rfl, rfl, rfl⟩

/-- Claim C3 (code bug): the source of a move construction is left with an
empty bucket vector — bucket count 0, not ≥ 1 — because the vector is moved
out and never reset, so the next indexOf on the moved-from table would take
a modulo by zero. -/
theorem C3_moved_from_source_has_zero_buckets :
    ((moveCtor (mkEmpty (fun k => k))).2).mData.length = 0 := rfl

/-- Claim C4 (code bug): constructing end() runs the iterator normalization
loop with the bucket cursor already equal to the table's end, and the loop
condition evaluates mBucket->end() before bound-checking the cursor against
mBucketEnd, so it reads the bucket at index bucket_count; the embedded
constructor reports exactly this out-of-range read (Except.error ()) on a
default-constructed table. -/
theorem C4_end_reads_out_of_range_bucket :
    endIter (mkEmpty (fun k => k)) = Except.error () := rfl

/-- Claim C5: on a valid table (placement invariant, no duplicate keys),
insert of a present key returns inserted = false and an iterator to the
existing entry, leaving size and the stored multiset of entries unchanged
(the provided value is discarded); insert of an absent key returns
inserted = true and an iterator to the new entry, which sits at the tail of
its bucket's chain, and the size grows by one. -/
theorem C5_insert_contract (t : HashMap) (kv : Nat × Nat) (h : WF t)
    (hnd : NodupKeys t) :
    if kv.1 ∈ keys t then
      (insert t kv).inserted = false ∧
        (insert t kv).table.mSize = t.mSize ∧
        ((entries (insert t kv).table : Multiset (Nat × Nat)) =
          (entries t : Multiset (Nat × Nat))) ∧
        ∃ v, (kv.1, v) ∈ entries t ∧
          iterEntry (insert t kv).table (insert t kv).pos = some (kv.1, v)
    else
      (insert t kv).inserted = true ∧
        (insert t kv).table.mSize = t.mSize + 1 ∧
        ((entries (insert t kv).table : Multiset (Nat × Nat)) =
          kv ::ₘ (entries t : Multiset (Nat × Nat))) ∧
        iterEntry (insert t kv).table (insert t kv).pos = some kv ∧
        (insert t kv).pos.1 = indexOf (insert t kv).table kv.1 ∧
        (insert t kv).pos.2 + 1 =
          ((insert t kv).table.mData.getD (insert t kv).pos.1 []).length := by
  by_cases hk : kv.1 ∈ keys t
  · rw [if_pos hk]
    obtain ⟨h1, h2, h3, -, -, h4⟩ := insert_present t kv h hnd hk
    exact ⟨h1, h2, h3, h4⟩
  · rw [if_neg hk]
    obtain ⟨h1, h2, h3, -, -, h4, h5, h6⟩ := insert_absent t kv h hnd hk
    exact ⟨h1, h2, h3, h4, h5, h6⟩

/-- Witness for C5: the concrete table built from [(0, 1), (1, 2)] with the
identity hash satisfies both hypotheses, and the theorem applies to it with
the already-present key 0. -/
theorem C5_insert_contract_witness :
    WF (fromList (fun k => k) [(0, 1), (1, 2)]) ∧
      NodupKeys (fromList (fun k => k) [(0, 1), (1, 2)]) ∧
      (if (0, 99).1 ∈ keys (fromList (fun k => k) [(0, 1), (1, 2)]) then
        (insert (fromList (fun k => k) [(0, 1), (1, 2)]) (0, 99)).inserted = false ∧
          (insert (fromList (fun k => k) [(0, 1), (1, 2)]) (0, 99)).table.mSize =
            (fromList (fun k => k) [(0, 1), (1, 2)]).mSize ∧
          ((entries (insert (fromList (fun k => k) [(0, 1), (1, 2)]) (0, 99)).table :
              Multiset (Nat × Nat)) =
            (entries (fromList (fun k => k) [(0, 1), (1, 2)]) : Multiset (Nat × Nat))) ∧
          ∃ v, ((0, 99) : Nat × Nat).1 = 0 ∧ (0, v) ∈ entries (fromList (fun k => k) [(0, 1), (1, 2)]) ∧
            iterEntry (insert (fromList (fun k => k) [(0, 1), (1, 2)]) (0, 99)).table
              (insert (fromList (fun k => k) [(0, 1), (1, 2)]) (0, 99)).pos = some (0, v)
      else True) := by
  refine ⟨by decide, by decide, ?_⟩
  have h := C5_insert_contract (fromList (fun k => k) [(0, 1), (1, 2)]) (0, 99)
    (by decide) (by decide)
  rw [if_pos (by decide)] at h ⊢
  obtain ⟨h1, h2, h3, v, h4, h5⟩ := h
  exact ⟨h1, h2, h3, v, rfl, h4, h5⟩

/-- Claim C6: on a table satisfying the placement invariant, rehash doubles
the bucket count, preserves the multiset of stored (key, value) pairs,
re-establishes the invariant (every entry sits in bucket
hash(key) mod the new bucket count), and each old bucket keeps, in place and
in order, exactly its entries whose recomputed index is unchanged while the
others appear, in order, in bucket index + old count. -/
theorem C6_rehash_preserves_content (t : HashMap) (h : WF t) :
    ((entries (rehash t) : Multiset (Nat × Nat)) =
      (entries t : Multiset (Nat × Nat))) ∧
      WF (rehash t) ∧
      (rehash t).mData.length = t.mData.length * 2 ∧
      ∀ i < t.mData.length,
        (rehash t).mData.getD i [] =
          (t.mData.getD i []).filter
            (fun e => t.mHash e.1 % (t.mData.length * 2) == i) ∧
        (rehash t).mData.getD (i + t.mData.length) [] =
          (t.mData.getD i []).filter
            (fun e => t.mHash e.1 % (t.mData.length * 2) == i + t.mData.length) := by
  obtain ⟨h1, h2, h3, h4⟩ := rehash_spec t h
  exact ⟨h2, WF_rehash t h, h1, fun i hi => ⟨h3 i hi, h4 i hi⟩⟩

/-- Witness for C6: the theorem applies to the concrete well-placed table
built from [(0, 1), (1, 2)] with the identity hash. -/
theorem C6_rehash_preserves_content_witness :
    WF (fromList (fun k => k) [(0, 1), (1, 2)]) ∧
      (((entries (rehash (fromList (fun k => k) [(0, 1), (1, 2)])) :
          Multiset (Nat × Nat)) =
        (entries (fromList (fun k => k) [(0, 1), (1, 2)]) : Multiset (Nat × Nat))) ∧
        WF (rehash (fromList (fun k => k) [(0, 1), (1, 2)])) ∧
        (rehash (fromList (fun k => k) [(0, 1), (1, 2)])).mData.length =
          (fromList (fun k => k) [(0, 1), (1, 2)]).mData.length * 2 ∧
        ∀ i < (fromList (fun k => k) [(0, 1), (1, 2)]).mData.length,
          (rehash (fromList (fun k => k) [(0, 1), (1, 2)])).mData.getD i [] =
            ((fromList (fun k => k) [(0, 1), (1, 2)]).mData.getD i []).filter
              (fun e => (fromList (fun k => k) [(0, 1), (1, 2)]).mHash e.1 %
                ((fromList (fun k => k) [(0, 1), (1, 2)]).mData.length * 2) == i) ∧
          (rehash (fromList (fun k => k) [(0, 1), (1, 2)])).mData.getD
              (i + (fromList (fun k => k) [(0, 1), (1, 2)]).mData.length) [] =
            ((fromList (fun k => k) [(0, 1), (1, 2)]).mData.getD i []).filter
              (fun e => (fromList (fun k => k) [(0, 1), (1, 2)]).mHash e.1 %
                ((fromList (fun k => k) [(0, 1), (1, 2)]).mData.length * 2) ==
                  i + (fromList (fun k => k) [(0, 1), (1, 2)]).mData.length)) :=
  ⟨by decide, C6_rehash_preserves_content (fromList (fun k => k) [(0, 1), (1, 2)]) (by decide)⟩

/-- Claim C7: starting from a default-constructed table, after every finite
sequence of insert and erase operations, the stored size equals the number
of distinct keys currently present. -/
theorem C7_size_counts_distinct_keys (hash : Nat → Nat) (ops : List OpIE) :
    (runIE (mkEmpty hash) ops).mSize =
      ((keys (runIE (mkEmpty hash) ops)).dedup).length := by
  have hinv := mapInv_runIE ops (mkEmpty hash) (mapInv_mkEmpty hash)
  have hnd := hinv.2.1
  rw [NodupKeys] at hnd
  have hdd : (keys (runIE (mkEmpty hash) ops)).dedup =
      keys (runIE (mkEmpty hash) ops) := List.dedup_eq_self.mpr hnd
  rw [hdd, keys, List.length_map]
  exact hinv.2.2

/-- Claim C8 (code bug): on the reachable table built from [(0, 1), (0, 2)]
— duplicate keys that the range constructor keeps — erase removes only the
first matching entry, so the following find still yields an iterator to the
remaining duplicate (position (0, 0), value 2) instead of the end
iterator. -/
theorem C8_erase_find_not_end :
    find (erase (fromList (fun k => k) [(0, 1), (0, 2)]) 0) 0 = some (0, 0) ∧
      find (erase (fromList (fun k => k) [(0, 1), (0, 2)]) 0) 0 ≠ none :=
  ⟨rfl, by decide⟩

/-- Claim C9: on a valid table, at raises the key-not-found error exactly
when the key is absent, and returns exactly the stored value when the key is
present; the embedded at is a pure function of the table (the C++ method is
const), so the table is unchanged. -/
theorem C9_at_contract (t : HashMap) (k : Nat) (h : WF t)
    (hnd : NodupKeys t) :
    (atKey t k = Except.error () ↔ k ∉ keys t) ∧
      ∀ v, atKey t k = Except.ok v ↔ (k, v) ∈ entries t :=
  atKey_spec t h hnd k

/-- Witness for C9: the theorem applies to the concrete table built from
[(0, 1), (1, 2)] with the identity hash and the present key 0. -/
theorem C9_at_contract_witness :
    WF (fromList (fun k => k) [(0, 1), (1, 2)]) ∧
      NodupKeys (fromList (fun k => k) [(0, 1), (1, 2)]) ∧
      ((atKey (fromList (fun k => k) [(0, 1), (1, 2)]) 0 = Except.error () ↔
          0 ∉ keys (fromList (fun k => k) [(0, 1), (1, 2)])) ∧
        ∀ v, atKey (fromList (fun k => k) [(0, 1), (1, 2)]) 0 = Except.ok v ↔
          (0, v) ∈ entries (fromList (fun k => k) [(0, 1), (1, 2)])) :=
  ⟨by decide, by decide,
    C9_at_contract (fromList (fun k => k) [(0, 1), (1, 2)]) 0 (by decide) (by decide)⟩

/-- Claim C10: copy assignment, implemented by copy-and-swap, makes the
left-hand table hold exactly the buckets, size and hash function the
right-hand table held, leaves the right-hand table unchanged, and
self-assignment leaves the table unchanged. -/
theorem C10_assignment_copy_and_swap (a b : HashMap) :
    ((assign a b).1).mData = b.mData ∧ ((assign a b).1).mSize = b.mSize ∧
      ((assign a b).1).mHash = b.mHash ∧ (assign a b).2 = b ∧
      (assign a a).1 = a :=
  ⟨rfl, rfl, rfl, rfl, rfl⟩

end HashMap
